import Mathlib

/-!
# Verification of the BKE tic-tac-toe agent layer

Shallow embedding of `src/_agent.py` (the three agents) together with the
rules-engine primitives it imports from `_core` (modelled from the spec,
since `_core` is not part of the sources).

Conventions of the embedding:
* A board cell is `Option Symbol` (`none` is the empty marker).
* A `Board` is a `List Cell`; the game invariant is `length = 9`.
* Python floats are modelled as rationals (`ℚ`).
* Calls to `random.random()` are modelled by passing the sampled value
  `u : ℚ` explicitly; `random.choice(l)` is modelled by passing a natural
  number `p` and returning `l[p % l.length]` (and `none` — the `IndexError`
  — on an empty list).
* Fallible code returns `Option`; `none` is a raised exception.
-/

namespace BKE

/-- Modelled from the spec: `Symbol` is one of two values X and O
(`_typing.Symbol` is not in the sources). -/
inductive Symbol : Type
  | X : Symbol
  | O : Symbol
deriving DecidableEq, Repr, Fintype

/-- A board cell: the empty marker or a symbol. -/
abbrev Cell := Option Symbol

/-- Modelled from the spec: a board is an ordered, fixed-length (9) sequence
of cells indexed 0–8 in row-major order (`_typing.Board` is not in the
sources). Out-of-range reads use the empty marker as default. -/
abbrev Board := List Cell

/-- Modelled from the spec: `opponent` is the total involutive mapping
X↔O from `_core` (not in the sources). -/
def opponent : Symbol → Symbol
  | Symbol.X => Symbol.O
  | Symbol.O => Symbol.X

/-- Modelled from the spec: the fixed set of 8 winning lines (3 rows,
3 columns, 2 diagonals), a constant of the `_core` rules engine. -/
def lines : List (Nat × Nat × Nat) :=
  [(0, 1, 2), (3, 4, 5), (6, 7, 8),
   (0, 3, 6), (1, 4, 7), (2, 5, 8),
   (0, 4, 8), (2, 4, 6)]

/-- Modelled from the spec: `_core.is_free(board, i)` is true iff cell `i`
holds the empty marker. -/
def is_free (b : Board) (i : Nat) : Bool :=
  decide (b.getD i none = none)

/-- Modelled from the spec: `_core.is_winner(board, symbol)` is true iff
some winning line has all three cells equal to `symbol`. -/
def is_winner (b : Board) (s : Symbol) : Bool :=
  lines.any fun t =>
    decide (b.getD t.1 none = some s) &&
    decide (b.getD t.2.1 none = some s) &&
    decide (b.getD t.2.2 none = some s)

/-- Modelled from the spec: `_core.is_board_full(board)` is true iff no cell
is empty. -/
def is_board_full (b : Board) : Bool :=
  b.all fun c => c.isSome

/-- Modelled from the spec: `_core.can_win(board, symbol)` is true iff there
is a free cell such that placing `symbol` there makes `is_winner` true. -/
def can_win (b : Board) (s : Symbol) : Bool :=
  (List.range 9).any fun i => is_free b i && is_winner (b.set i (some s)) s

/-- `Agent.explore_move` (src/_agent.py:14-20): copy the board and place
`symbol` at index `move`. -/
def explore_move (b : Board) (s : Symbol) (m : Nat) : Board :=
  b.set m (some s)

/-- The list comprehension `[i for i in range(9) if is_free(board, i)]`
(src/_agent.py:25). -/
def freeMoves (b : Board) : List Nat :=
  (List.range 9).filter fun i => is_free b i

/-- `Agent.get_moves_and_boards` (src/_agent.py:22-28): all legal moves,
each paired with the board that results from playing it. -/
def get_moves_and_boards (b : Board) (s : Symbol) : List (Nat × Board) :=
  (freeMoves b).map fun m => (m, explore_move b s m)

/-- Model of `random.choice(l)`: pick an element selected by `p` modulo the
length; `none` models the `IndexError` on an empty list. -/
def choice (p : Nat) (l : List α) : Option α :=
  l.get? (p % l.length)

/-- Python's ascending comparison on `(score, move)` tuples: lexicographic. -/
def pairLt (x y : Int × Nat) : Prop :=
  x.1 < y.1 ∨ (x.1 = y.1 ∧ x.2 < y.2)

instance (x y : Int × Nat) : Decidable (pairLt x y) := by
  unfold pairLt; infer_instance

/-- One step of a stable descending insertion sort by `pairLt`: models the
ordering produced by `list.sort(reverse=True)` on distinct tuples. -/
def insertDesc (x : Int × Nat) : List (Int × Nat) → List (Int × Nat)
  | [] => [x]
  | y :: ys => if pairLt x y then y :: insertDesc x ys else x :: y :: ys

/-- `evaluations.sort(reverse=True)` (src/_agent.py:37): sort `(score, move)`
pairs in descending lexicographic order. -/
def sortDesc (l : List (Int × Nat)) : List (Int × Nat) :=
  l.foldr insertDesc []

/-- `EvaluationAgent.move` (src/_agent.py:32-38), parametric in the abstract
`evaluate`: score every legal move's resulting board, sort the
`(score, move)` pairs descending, return the first pair's move. `none`
models the `IndexError` of `evaluations[0]` on an exhausted board. -/
def EvaluationAgent.move (evaluate : Board → Symbol → Symbol → Int)
    (b : Board) (my : Symbol) : Option Nat :=
  let opp := opponent my
  let evals := (get_moves_and_boards b my).map fun ms => (evaluate ms.2 my opp, ms.1)
  ((sortDesc evals).head?).map fun e => e.2

/-- `OptimalEvaluationAgent.evaluate` (src/_agent.py:49-70). -/
def OptimalEvaluationAgent.evaluate (b : Board) (my op : Symbol) : Int :=
  if is_winner b my then 1000
  else if can_win b op then 0
  else if can_win b my then 500
  else
    4 * (if b.getD 4 none = some my then 1 else 0)
    + 2 * (if b.getD 0 none = some my then 1 else 0)
    + 2 * (if b.getD 2 none = some my then 1 else 0)
    + 2 * (if b.getD 6 none = some my then 1 else 0)
    + 2 * (if b.getD 8 none = some my then 1 else 0)
    + 1 * (if b.getD 1 none = some my then 1 else 0)
    + 1 * (if b.getD 3 none = some my then 1 else 0)
    + 1 * (if b.getD 5 none = some my then 1 else 0)
    + 1 * (if b.getD 7 none = some my then 1 else 0)

/-- The heuristic agent's `move`: `EvaluationAgent.move` dispatched to
`OptimalEvaluationAgent.evaluate`. -/
def OptimalEvaluationAgent.move (b : Board) (my : Symbol) : Option Nat :=
  EvaluationAgent.move OptimalEvaluationAgent.evaluate b my

/-- `RandomAgent.move` (src/_agent.py:147-148): `random.choice` over the
`(move, board)` scenarios, then the move component. -/
def RandomAgent.move (p : Nat) (b : Board) (my : Symbol) : Option Nat :=
  (choice p (get_moves_and_boards b my)).map fun ms => ms.1

/-- The value table `MLAgent._memory`: a Python dict from string keys to
float values, `none` for an absent key. -/
def Memory := String → Option ℚ

/-- The mutable state of an `MLAgent` (src/_agent.py:74-83). -/
structure MLState where
  learning : Bool
  symbol : Option Symbol
  epsilon : ℚ
  alpha : ℚ
  memory : Memory

/-- Modelled from the spec: each cell renders as one character, the three
cell contents rendering distinctly (the concrete characters live in the
`_core`/`_typing` modules, which are not in the sources). -/
def cellChar : Cell → Char
  | none => '-'
  | some Symbol.X => 'X'
  | some Symbol.O => 'O'

/-- `MLAgent._hash_board` (src/_agent.py:124-125): concatenate the cell
symbols in index order into one string key. -/
def MLAgent.hash_board (b : Board) : String :=
  String.mk (b.map cellChar)

/-- `MLAgent._value_from_memory` (src/_agent.py:121-122): table lookup by
board key, default 0. -/
def MLAgent.value_from_memory (mem : Memory) (b : Board) : ℚ :=
  (mem (MLAgent.hash_board b)).getD 0

/-- `MLAgent._store_value` (src/_agent.py:127-128): write the value under
the board's key. -/
def MLAgent.store_value (mem : Memory) (b : Board) (v : ℚ) : Memory :=
  fun k => if k = MLAgent.hash_board b then some v else mem k

/-- Python's `max` over a list of floats: the greatest element of a
nonempty list (`none` models the `ValueError` on an empty one). -/
def pyMax (l : List ℚ) : Option ℚ :=
  l.max?

/-- Python's `min` over a list of floats: the least element of a nonempty
list (`none` models the `ValueError` on an empty one). -/
def pyMin (l : List ℚ) : Option ℚ :=
  l.min?

/-- `MLAgent._minmax` (src/_agent.py:130-143). `u` is the sample returned
by `random.random()` and `p` drives `random.choice`. The `value_per_move`
dict is represented as the association list in insertion order (moves are
distinct). -/
def MLAgent.minmax (st : MLState) (u : ℚ) (p : Nat) (b : Board)
    (symbol : Symbol) : Option Nat :=
  let vpm := (get_moves_and_boards b symbol).map
    fun ms => (ms.1, MLAgent.value_from_memory st.memory ms.2)
  if st.learning ∧ u < st.epsilon then
    choice p (vpm.map fun mv => mv.1)
  else
    match (if st.symbol = some symbol then pyMax else pyMin)
        (vpm.map fun mv => mv.2) with
    | none => none
    | some best =>
      choice p ((vpm.filter fun mv => decide (mv.2 = best)).map fun mv => mv.1)

/-- `MLAgent.evaluate` (src/_agent.py:85-92), with `self.symbol` passed
explicitly: the immediate reward of a board. -/
def MLAgent.evaluate (sym : Symbol) (b : Board) : Int :=
  if is_winner b sym then 1
  else if is_winner b (opponent sym) then -1
  else 0

/-- `MLAgent.move` (src/_agent.py:94-115). `u1, p1` drive the first
`_minmax` call, `u2, p2` the opponent-simulation call. Returns the chosen
move together with the updated agent state. -/
def MLAgent.move (st : MLState) (u1 : ℚ) (p1 : Nat) (u2 : ℚ) (p2 : Nat)
    (b : Board) (my : Symbol) : Option (Nat × MLState) :=
  let sym := st.symbol.getD my
  let st1 : MLState := { st with symbol := some sym }
  match MLAgent.minmax st1 u1 p1 b my with
  | none => none
  | some mv =>
    if st1.learning then
      let next_board := explore_move b my mv
      let cont : Option ℚ :=
        if ¬ is_winner next_board my
            ∧ ¬ is_winner next_board (opponent my)
            ∧ ¬ is_board_full next_board then
          match MLAgent.minmax st1 u2 p2 next_board (opponent my) with
          | none => none
          | some next_move =>
            some (MLAgent.value_from_memory st1.memory
              (explore_move next_board (opponent my) next_move))
        else some 0
      match cont with
      | none => none
      | some next_mem_value =>
        let evaluation : ℚ := MLAgent.evaluate sym next_board
        let mem_value := MLAgent.value_from_memory st1.memory next_board
        let new_value := mem_value + st1.alpha * (evaluation + next_mem_value)
        some (mv, { st1 with
          memory := MLAgent.store_value st1.memory next_board new_value })
    else
      some (mv, st1)

/-! ## Spec-side definitions

These follow the wording of `spec.md` (not the code); the refinement
theorems below compare them with the source embeddings. -/

/-- The table value the selection rule assigns to playing `m`: the lookup
(default 0) of the resulting board. -/
def moveValue (mem : Memory) (b : Board) (s : Symbol) (m : Nat) : ℚ :=
  MLAgent.value_from_memory mem (explore_move b s m)

/-- Spec §4.4: the legal moves whose resulting-board value is maximal
among all legal moves. -/
def specMaxMoves (mem : Memory) (b : Board) (s : Symbol) : List Nat :=
  (freeMoves b).filter fun m =>
    decide (∀ m' ∈ freeMoves b, moveValue mem b s m' ≤ moveValue mem b s m)

/-- Spec §4.4: the legal moves whose resulting-board value is minimal
among all legal moves. -/
def specMinMoves (mem : Memory) (b : Board) (s : Symbol) : List Nat :=
  (freeMoves b).filter fun m =>
    decide (∀ m' ∈ freeMoves b, moveValue mem b s m ≤ moveValue mem b s m')

/-- Spec §4.4, the candidate set of the selection rule: all legal moves
when learning and the epsilon draw succeeds; otherwise the maximal-value
legal moves when `s` is the agent's bound symbol and the minimal-value
legal moves when it differs. The returned move is drawn uniformly from
this list. -/
def specOptions (st : MLState) (u : ℚ) (b : Board) (s : Symbol) : List Nat :=
  if st.learning ∧ u < st.epsilon then freeMoves b
  else if st.symbol = some s then specMaxMoves st.memory b s
  else specMinMoves st.memory b s

/-- Spec §4.4 step 3: +1 if the agent's bound symbol wins on the board,
−1 if the opponent's symbol wins, else 0. -/
def specReward (sym : Symbol) (b : Board) : ℚ :=
  if is_winner b sym then 1
  else if is_winner b (opponent sym) then -1
  else 0

/-- Spec §4.3: the positional weight of a cell — 4 for the center, 2 for a
corner, 1 for an edge. -/
def positionalWeight (i : Nat) : Int :=
  if i = 4 then 4
  else if i = 0 ∨ i = 2 ∨ i = 6 ∨ i = 8 then 2
  else 1

/-- Spec §4.3: the positional score — the weights summed over the cells
the agent occupies. -/
def specPositional (b : Board) (s : Symbol) : Int :=
  ((List.range 9).map fun i =>
    if b.getD i none = some s then positionalWeight i else 0).sum

/-- Spec §4.3, the heuristic score of a resulting board: 1000 on an
immediate win, else 0 if the opponent could win next move, else 500 if the
agent still has a one-move win, else the positional score. -/
def specHeuristic (b : Board) (s t : Symbol) : Int :=
  if is_winner b s then 1000
  else if can_win b t then 0
  else if can_win b s then 500
  else specPositional b s

/-- Non-strict lexicographic comparison of `(score, move)` tuples. -/
def pairLe (x y : Int × Nat) : Prop :=
  x = y ∨ pairLt x y

/-- Concrete boards used by the closed witness statements. -/
def board0 : Board := List.replicate 9 none

/-! ## Helper lemmas -/

lemma choice_mem {α : Type} {l : List α} {p : Nat} {x : α}
    (h : choice p l = some x) : x ∈ l := by
  unfold choice at h
  exact List.get?_mem h

lemma choice_eq_some {α : Type} {l : List α} (hl : l ≠ []) (p : Nat) :
    ∃ x, choice p l = some x ∧ x ∈ l := by
  have hlen : 0 < l.length := List.length_pos.mpr hl
  have hlt : p % l.length < l.length := Nat.mod_lt _ hlen
  unfold choice
  rw [List.get?_eq_getElem?, List.getElem?_eq_getElem hlt]
  exact ⟨_, rfl, List.getElem_mem hlt⟩

lemma choice_singleton {α : Type} (p : Nat) (x : α) : choice p [x] = some x := by
  simp [choice, Nat.mod_one]

lemma mem_freeMoves {b : Board} {m : Nat} :
    m ∈ freeMoves b ↔ m < 9 ∧ is_free b m = true := by
  simp [freeMoves, List.mem_filter, List.mem_range]

lemma freeMoves_ne_nil {b : Board} (hb : b.length = 9)
    (hf : is_board_full b = false) : freeMoves b ≠ [] := by
  obtain ⟨c, hc, hcs⟩ := List.all_eq_false.mp hf
  obtain ⟨i, hi, hbi⟩ := List.mem_iff_getElem.mp hc
  have hfree : is_free b i = true := by
    unfold is_free
    rw [List.getD_eq_getElem?_getD, List.getElem?_eq_getElem hi, hbi]
    cases c with
    | none => simp
    | some s => simp at hcs
  have : i ∈ freeMoves b := mem_freeMoves.mpr ⟨hb ▸ hi, hfree⟩
  exact List.ne_nil_of_mem this

lemma pyMax_spec {l : List ℚ} {B : ℚ} (h : pyMax l = some B) :
    B ∈ l ∧ ∀ x ∈ l, x ≤ B :=
  ⟨List.max?_mem max_choice h,
   (List.max?_le_iff (fun _ _ _ => max_le_iff) h).mp le_rfl⟩

lemma pyMin_spec {l : List ℚ} {B : ℚ} (h : pyMin l = some B) :
    B ∈ l ∧ ∀ x ∈ l, B ≤ x :=
  ⟨List.min?_mem min_choice h,
   (List.le_min?_iff (fun _ _ _ => le_min_iff) h).mp le_rfl⟩

lemma pyMax_eq_some {l : List ℚ} (hl : l ≠ []) : ∃ B, pyMax l = some B := by
  cases l with
  | nil => exact absurd rfl hl
  | cons x xs => exact ⟨_, rfl⟩

lemma pyMin_eq_some {l : List ℚ} (hl : l ≠ []) : ∃ B, pyMin l = some B := by
  cases l with
  | nil => exact absurd rfl hl
  | cons x xs => exact ⟨_, rfl⟩

lemma scenarios_map_fst (mem : Memory) (b : Board) (s : Symbol) :
    (((get_moves_and_boards b s).map fun ms =>
        (ms.1, MLAgent.value_from_memory mem ms.2)).map fun mv => mv.1)
      = freeMoves b := by
  simp [get_moves_and_boards, List.map_map, Function.comp_def]

lemma scenarios_map_snd (mem : Memory) (b : Board) (s : Symbol) :
    (((get_moves_and_boards b s).map fun ms =>
        (ms.1, MLAgent.value_from_memory mem ms.2)).map fun mv => mv.2)
      = (freeMoves b).map (moveValue mem b s) := by
  simp [get_moves_and_boards, moveValue, List.map_map, Function.comp]

lemma scenarios_filter_map_fst (mem : Memory) (b : Board) (s : Symbol) (q : ℚ) :
    ((((get_moves_and_boards b s).map fun ms =>
          (ms.1, MLAgent.value_from_memory mem ms.2)).filter
        fun mv => decide (mv.2 = q)).map fun mv => mv.1)
      = (freeMoves b).filter fun m => decide (moveValue mem b s m = q) := by
  simp only [get_moves_and_boards, List.map_map, List.filter_map,
    List.map_map, Function.comp_def, moveValue]
  exact List.map_id' _

lemma filter_value_eq_specMax (mem : Memory) (b : Board) (s : Symbol) {B : ℚ}
    (hB : pyMax ((freeMoves b).map (moveValue mem b s)) = some B) :
    ((freeMoves b).filter fun m => decide (moveValue mem b s m = B))
      = specMaxMoves mem b s := by
  obtain ⟨hmem, hle⟩ := pyMax_spec hB
  unfold specMaxMoves
  apply List.filter_congr
  intro m hm
  rw [decide_eq_decide]
  constructor
  · intro h m' hm'
    exact h ▸ hle _ (List.mem_map_of_mem _ hm')
  · intro h
    obtain ⟨m₀, hm₀, hBm₀⟩ := List.mem_map.mp hmem
    exact le_antisymm (hle _ (List.mem_map_of_mem _ hm)) (hBm₀ ▸ h m₀ hm₀)

lemma filter_value_eq_specMin (mem : Memory) (b : Board) (s : Symbol) {B : ℚ}
    (hB : pyMin ((freeMoves b).map (moveValue mem b s)) = some B) :
    ((freeMoves b).filter fun m => decide (moveValue mem b s m = B))
      = specMinMoves mem b s := by
  obtain ⟨hmem, hle⟩ := pyMin_spec hB
  unfold specMinMoves
  apply List.filter_congr
  intro m hm
  rw [decide_eq_decide]
  constructor
  · intro h m' hm'
    exact h ▸ hle _ (List.mem_map_of_mem _ hm')
  · intro h
    obtain ⟨m₀, hm₀, hBm₀⟩ := List.mem_map.mp hmem
    exact le_antisymm (hBm₀ ▸ h m₀ hm₀) (hle _ (List.mem_map_of_mem _ hm))

/-- The single characterization of `_minmax`: the code's selection equals a
uniform choice from the spec's candidate set. -/
lemma minmax_eq_choice (st : MLState) (u : ℚ) (p : Nat) (b : Board)
    (s : Symbol) :
    MLAgent.minmax st u p b s = choice p (specOptions st u b s) := by
  unfold MLAgent.minmax specOptions
  by_cases hex : st.learning = true ∧ u < st.epsilon
  · rw [if_pos hex, if_pos hex, scenarios_map_fst]
  · rw [if_neg hex, if_neg hex]
    by_cases hs : st.symbol = some s
    · rw [if_pos hs, if_pos hs]
      rw [scenarios_map_snd]
      cases hmax : pyMax ((freeMoves b).map (moveValue st.memory b s)) with
      | none =>
        have : (freeMoves b).map (moveValue st.memory b s) = [] := by
          unfold pyMax at hmax
          exact List.max?_eq_none_iff.mp hmax
        have hfb : freeMoves b = [] := List.map_eq_nil_iff.mp this
        simp [specMaxMoves, hfb, choice]
      | some B =>
        dsimp only
        rw [scenarios_filter_map_fst, filter_value_eq_specMax _ _ _ hmax]
    · rw [if_neg hs, if_neg hs]
      rw [scenarios_map_snd]
      cases hmin : pyMin ((freeMoves b).map (moveValue st.memory b s)) with
      | none =>
        have : (freeMoves b).map (moveValue st.memory b s) = [] := by
          unfold pyMin at hmin
          exact List.min?_eq_none_iff.mp hmin
        have hfb : freeMoves b = [] := List.map_eq_nil_iff.mp this
        simp [specMinMoves, hfb, choice]
      | some B =>
        dsimp only
        rw [scenarios_filter_map_fst, filter_value_eq_specMin _ _ _ hmin]

lemma specOptions_subset (st : MLState) (u : ℚ) (b : Board) (s : Symbol) :
    specOptions st u b s ⊆ freeMoves b := by
  unfold specOptions
  split
  · exact fun _ h => h
  · split
    · exact (List.filter_sublist _).subset
    · exact (List.filter_sublist _).subset

lemma specOptions_ne_nil (st : MLState) (u : ℚ) {b : Board} (s : Symbol)
    (hf : freeMoves b ≠ []) : specOptions st u b s ≠ [] := by
  unfold specOptions
  split
  · exact hf
  · have hmapne : (freeMoves b).map (moveValue st.memory b s) ≠ [] := by
      simpa using hf
    split
    · obtain ⟨B, hB⟩ := pyMax_eq_some hmapne
      obtain ⟨hmem, hle⟩ := pyMax_spec hB
      obtain ⟨m₀, hm₀, hBm₀⟩ := List.mem_map.mp hmem
      have : m₀ ∈ specMaxMoves st.memory b s := by
        unfold specMaxMoves
        refine List.mem_filter.mpr ⟨hm₀, ?_⟩
        simp only [decide_eq_true_eq]
        intro m' hm'
        exact hBm₀ ▸ hle _ (List.mem_map_of_mem _ hm')
      exact List.ne_nil_of_mem this
    · obtain ⟨B, hB⟩ := pyMin_eq_some hmapne
      obtain ⟨hmem, hle⟩ := pyMin_spec hB
      obtain ⟨m₀, hm₀, hBm₀⟩ := List.mem_map.mp hmem
      have : m₀ ∈ specMinMoves st.memory b s := by
        unfold specMinMoves
        refine List.mem_filter.mpr ⟨hm₀, ?_⟩
        simp only [decide_eq_true_eq]
        intro m' hm'
        exact hBm₀ ▸ hle _ (List.mem_map_of_mem _ hm')
      exact List.ne_nil_of_mem this

lemma minmax_mem {st : MLState} {u : ℚ} {p : Nat} {b : Board} {s : Symbol}
    {m : Nat} (h : MLAgent.minmax st u p b s = some m) : m ∈ freeMoves b := by
  rw [minmax_eq_choice] at h
  exact specOptions_subset st u b s (choice_mem h)

lemma minmax_isSome {st : MLState} (u : ℚ) (p : Nat) {b : Board} (s : Symbol)
    (hf : freeMoves b ≠ []) :
    ∃ m, MLAgent.minmax st u p b s = some m ∧ m ∈ freeMoves b := by
  obtain ⟨m, hm, hmem⟩ := choice_eq_some (specOptions_ne_nil st u s hf) p
  rw [minmax_eq_choice]
  exact ⟨m, hm, specOptions_subset st u b s hmem⟩

lemma symbol_cases (s t : Symbol) : s = t ∨ s = opponent t := by
  cases s <;> cases t <;> simp [opponent]

lemma length_explore_move (b : Board) (s : Symbol) (m : Nat) :
    (explore_move b s m).length = b.length :=
  List.length_set b m (some s)

lemma move_spec (st : MLState) (u1 : ℚ) (p1 : Nat) (u2 : ℚ) (p2 : Nat)
    (b : Board) (my : Symbol) (hb : b.length = 9) (hf : freeMoves b ≠ []) :
    ∃ mv st', MLAgent.move st u1 p1 u2 p2 b my = some (mv, st') ∧
      MLAgent.minmax { st with symbol := some (st.symbol.getD my) } u1 p1 b my
        = some mv ∧
      mv ∈ freeMoves b ∧
      st'.symbol = some (st.symbol.getD my) := by
  obtain ⟨lrn, symb, eps, alph, mem⟩ := st
  obtain ⟨mv, hmv, hmem⟩ :=
    @minmax_isSome ⟨lrn, some (symb.getD my), eps, alph, mem⟩ u1 p1 b my hf
  unfold MLAgent.move
  dsimp only at hmv ⊢
  rw [hmv]
  dsimp only
  cases lrn with
  | false =>
    rw [if_neg (by simp)]
    exact ⟨mv, _, rfl, rfl, hmem, rfl⟩
  | true =>
    rw [if_pos rfl]
    by_cases hcond : ¬ is_winner (explore_move b my mv) my = true
        ∧ ¬ is_winner (explore_move b my mv) (opponent my) = true
        ∧ ¬ is_board_full (explore_move b my mv) = true
    · rw [if_pos hcond]
      have hnotfull : is_board_full (explore_move b my mv) = false := by
        rcases hcond with ⟨-, -, h3⟩
        exact Bool.not_eq_true _ ▸ h3
      have hflen : (explore_move b my mv).length = 9 := by
        rw [length_explore_move]; exact hb
      obtain ⟨nmv, hnmv, -⟩ :=
        @minmax_isSome ⟨true, some (symb.getD my), eps, alph, mem⟩ u2 p2 _
          (opponent my) (freeMoves_ne_nil hflen hnotfull)
      rw [hnmv]
      exact ⟨mv, _, rfl, rfl, hmem, rfl⟩
    · rw [if_neg hcond]
      exact ⟨mv, _, rfl, rfl, hmem, rfl⟩

lemma head?_mem {α : Type} {l : List α} {x : α} (h : l.head? = some x) :
    x ∈ l := by
  cases l with
  | nil => simp at h
  | cons a t =>
    simp only [List.head?_cons, Option.some.injEq] at h
    exact h ▸ List.mem_cons_self a t

lemma insertDesc_eq_orderedInsert (a : Int × Nat) (l : List (Int × Nat)) :
    insertDesc a l = List.orderedInsert (fun x y => ¬ pairLt x y) a l := by
  induction l with
  | nil => rfl
  | cons y ys ih =>
    by_cases h : pairLt a y
    · rw [insertDesc, if_pos h, List.orderedInsert, if_neg (not_not_intro h), ih]
    · rw [insertDesc, if_neg h, List.orderedInsert, if_pos h]

lemma sortDesc_eq_insertionSort (l : List (Int × Nat)) :
    sortDesc l = List.insertionSort (fun x y => ¬ pairLt x y) l := by
  induction l with
  | nil => rfl
  | cons a l ih =>
    show insertDesc a (sortDesc l) = _
    rw [ih, List.insertionSort, insertDesc_eq_orderedInsert]

lemma mem_sortDesc {l : List (Int × Nat)} {x : Int × Nat} :
    x ∈ sortDesc l ↔ x ∈ l := by
  rw [sortDesc_eq_insertionSort]
  exact (List.perm_insertionSort _ l).mem_iff

lemma pairLt_trichotomy (x y : Int × Nat) : pairLt x y ∨ x = y ∨ pairLt y x := by
  rcases x with ⟨a, b⟩
  rcases y with ⟨c, d⟩
  simp only [pairLt, Prod.mk.injEq]
  omega

lemma sortDesc_sorted (l : List (Int × Nat)) :
    List.Sorted (fun x y => ¬ pairLt x y) (sortDesc l) := by
  rw [sortDesc_eq_insertionSort]
  haveI : IsTotal (Int × Nat) (fun x y => ¬ pairLt x y) := by
    constructor
    intro a b
    rcases a with ⟨a1, a2⟩
    rcases b with ⟨b1, b2⟩
    simp only [pairLt]
    omega
  haveI : IsTrans (Int × Nat) (fun x y => ¬ pairLt x y) := by
    constructor
    intro a b c
    rcases a with ⟨a1, a2⟩
    rcases b with ⟨b1, b2⟩
    rcases c with ⟨c1, c2⟩
    simp only [pairLt]
    omega
  exact List.sorted_insertionSort _ l

/-- The head of the descending sort is a lexicographic maximum of the list. -/
lemma sortDesc_head_max {l : List (Int × Nat)} {x : Int × Nat}
    (h : (sortDesc l).head? = some x) : x ∈ l ∧ ∀ y ∈ l, pairLe y x := by
  have hs := sortDesc_sorted l
  have hxmem : x ∈ l := mem_sortDesc.mp (head?_mem h)
  refine ⟨hxmem, fun y hy => ?_⟩
  have hy' : y ∈ sortDesc l := mem_sortDesc.mpr hy
  rcases hsd : sortDesc l with _ | ⟨a, tl⟩
  · rw [hsd] at hy'; simp at hy'
  · rw [hsd] at h hy' hs
    simp only [List.head?_cons, Option.some.injEq] at h
    rcases List.mem_cons.mp hy' with hya | hytl
    · exact Or.inl (hya.trans h)
    · have hnot : ¬ pairLt a y := List.rel_of_sorted_cons hs y hytl
      rw [h] at hnot
      rcases pairLt_trichotomy y x with h1 | h1 | h1
      · exact Or.inr h1
      · exact Or.inl h1
      · exact absurd h1 hnot

lemma evaluate_cast_eq_specReward (s : Symbol) (b : Board) :
    ((MLAgent.evaluate s b : Int) : ℚ) = specReward s b := by
  unfold MLAgent.evaluate specReward
  split_ifs <;> norm_num

lemma cellChar_injective : Function.Injective cellChar := by
  intro a b h
  cases a with
  | none =>
    cases b with
    | none => rfl
    | some sb => cases sb <;> simp [cellChar] at h
  | some sa =>
    cases b with
    | none => cases sa <;> simp [cellChar] at h
    | some sb => cases sa <;> cases sb <;> simp [cellChar] at h <;> rfl

lemma minmax_none_of_nil {st : MLState} (u : ℚ) (p : Nat) {b : Board}
    (s : Symbol) (hfull : freeMoves b = []) :
    MLAgent.minmax st u p b s = none := by
  rw [minmax_eq_choice]
  have hopt : specOptions st u b s = [] :=
    List.subset_nil.mp (hfull ▸ specOptions_subset st u b s)
  rw [hopt]
  rfl

/-! ## The claims -/

/-- **C2**: for every board with a free cell, `_minmax` enumerates the legal
moves, values each resulting board by table lookup with default 0, and
returns a uniform choice from exactly the spec's candidate set: all legal
moves when learning and the epsilon draw succeeds, else the legal moves of
maximal table value when `s` is the bound symbol and of minimal table value
otherwise; in particular a move is returned. -/
theorem C2_minmax_selection_rule (st : MLState) (u : ℚ) (p : Nat) (b : Board)
    (s : Symbol) (hf : freeMoves b ≠ []) :
    MLAgent.minmax st u p b s = choice p (specOptions st u b s) ∧
    ∃ m, MLAgent.minmax st u p b s = some m ∧ m ∈ specOptions st u b s := by
  refine ⟨minmax_eq_choice st u p b s, ?_⟩
  obtain ⟨m, hm, hmem⟩ := choice_eq_some (specOptions_ne_nil st u s hf) p
  rw [minmax_eq_choice]
  exact ⟨m, hm, hmem⟩

/-- Witness for C2: on the empty board with an empty table, exploitation
returns a concrete move from the candidate set. -/
theorem C2_minmax_selection_rule_witness :
    freeMoves board0 ≠ [] ∧
    (MLAgent.minmax ⟨false, some Symbol.X, 0, 1, fun _ => none⟩ 0 3 board0
        Symbol.X
      = choice 3 (specOptions ⟨false, some Symbol.X, 0, 1, fun _ => none⟩ 0
          board0 Symbol.X) ∧
    ∃ m, MLAgent.minmax ⟨false, some Symbol.X, 0, 1, fun _ => none⟩ 0 3 board0
        Symbol.X = some m ∧
      m ∈ specOptions ⟨false, some Symbol.X, 0, 1, fun _ => none⟩ 0 board0
        Symbol.X) :=
  ⟨by decide,
   C2_minmax_selection_rule ⟨false, some Symbol.X, 0, 1, fun _ => none⟩ 0 3
     board0 Symbol.X (by decide)⟩

/-- **C8**: with `learning = false` and `epsilon = 0`, whenever exactly one
legal move achieves the extreme table value, every run — whatever the
random draws — returns that move. -/
theorem C8_deterministic_selection (st : MLState) (b : Board) (s : Symbol)
    (m : Nat) (hl : st.learning = false) (he : st.epsilon = 0)
    (huniq : specOptions st 0 b s = [m]) :
    ∀ u p, MLAgent.minmax st u p b s = some m := by
  intro u p
  rw [minmax_eq_choice]
  have hind : specOptions st u b s = specOptions st 0 b s := by
    unfold specOptions
    rw [hl]
    simp
  rw [hind, huniq, choice_singleton]

/-- Witness for C8: a table that values the center reply strictly above the
rest forces the same move for two different random draws. -/
theorem C8_deterministic_selection_witness :
    MLAgent.minmax ⟨false, some Symbol.X, 0, 1,
        fun k => if k = "----X----" then some 1 else none⟩ 7 3 board0 Symbol.X
      = some 4 ∧
    MLAgent.minmax ⟨false, some Symbol.X, 0, 1,
        fun k => if k = "----X----" then some 1 else none⟩ 0 8 board0 Symbol.X
      = some 4 :=
  ⟨C8_deterministic_selection ⟨false, some Symbol.X, 0, 1,
      fun k => if k = "----X----" then some 1 else none⟩ board0 Symbol.X 4
      rfl rfl (by decide) 7 3,
   C8_deterministic_selection ⟨false, some Symbol.X, 0, 1,
      fun k => if k = "----X----" then some 1 else none⟩ board0 Symbol.X 4
      rfl rfl (by decide) 0 8⟩

/-- A full board used by the C6 witness. -/
def boardFull : Board :=
  [some Symbol.X, some Symbol.O, some Symbol.X,
   some Symbol.O, some Symbol.X, some Symbol.O,
   some Symbol.O, some Symbol.X, some Symbol.O]

/-- **C6**: on a board with zero free cells, each of the three agents
signals an error (modelled as `none`) instead of returning an index. -/
theorem C6_exhausted_board_errors (b : Board) (my ms_ rs : Symbol)
    (st : MLState) (u1 u2 : ℚ) (p1 p2 q : Nat)
    (hfull : freeMoves b = []) :
    OptimalEvaluationAgent.move b my = none ∧
    MLAgent.move st u1 p1 u2 p2 b ms_ = none ∧
    RandomAgent.move q b rs = none := by
  refine ⟨?_, ?_, ?_⟩
  · unfold OptimalEvaluationAgent.move EvaluationAgent.move
    simp [get_moves_and_boards, hfull, sortDesc]
  · obtain ⟨lrn, symb, eps, alph, mem⟩ := st
    have h0 : MLAgent.minmax ⟨lrn, some (symb.getD ms_), eps, alph, mem⟩ u1 p1
        b ms_ = none := minmax_none_of_nil u1 p1 ms_ hfull
    unfold MLAgent.move
    dsimp only
    rw [h0]
  · unfold RandomAgent.move
    simp [get_moves_and_boards, hfull, choice]

/-- Witness for C6: the three agents all fail on a concrete full board. -/
theorem C6_exhausted_board_errors_witness :
    freeMoves boardFull = [] ∧
    (OptimalEvaluationAgent.move boardFull Symbol.X = none ∧
     MLAgent.move ⟨true, none, 0, 1, fun _ => none⟩ 0 0 0 0 boardFull
       Symbol.O = none ∧
     RandomAgent.move 5 boardFull Symbol.X = none) :=
  ⟨by decide,
   C6_exhausted_board_errors boardFull Symbol.X Symbol.O Symbol.X
     ⟨true, none, 0, 1, fun _ => none⟩ 0 0 0 0 5 (by decide)⟩

/-- **C7**: the state key is the concatenation of the 9 cell symbols in
index order — it identifies the board exactly (equal contents give equal
keys and distinct contents give distinct keys), and a table write under a
board's key is seen by a read keyed by the same board. -/
theorem C7_state_key_canonical :
    Function.Injective MLAgent.hash_board ∧
    ∀ mem b v, MLAgent.value_from_memory (MLAgent.store_value mem b v) b = v := by
  constructor
  · intro b1 b2 h
    unfold MLAgent.hash_board at h
    injection h with h'
    exact List.map_injective_iff.mpr cellChar_injective h'
  · intro mem b v
    unfold MLAgent.value_from_memory MLAgent.store_value
    rw [if_pos rfl]
    rfl

/-- Witness for C7: a board built by playing the center of the empty board
and the same position written out literally share the key, hence are the
same table entry: a write through one is read through the other. -/
theorem C7_state_key_canonical_witness :
    explore_move board0 Symbol.X 4
      = [none, none, none, none, some Symbol.X, none, none, none, none] ∧
    MLAgent.value_from_memory
        (MLAgent.store_value (fun _ => none)
          (explore_move board0 Symbol.X 4) (3/2))
        [none, none, none, none, some Symbol.X, none, none, none, none]
      = 3/2 := by
  have h := C7_state_key_canonical.1
    (by decide :
      MLAgent.hash_board (explore_move board0 Symbol.X 4)
        = MLAgent.hash_board
            [none, none, none, none, some Symbol.X, none, none, none, none])
  refine ⟨h, ?_⟩
  rw [← h]
  exact C7_state_key_canonical.2 (fun _ => none) (explore_move board0 Symbol.X 4)
    (3/2)

/-- **C9**: `explore_move` returns a board holding the symbol at the target
cell, agreeing with the input everywhere else and of the same length; the
input board itself is a value the operation cannot mutate. -/
theorem C9_explore_move_frame (b : Board) (s : Symbol) (m : Nat)
    (hm : m < 9) (hb : b.length = 9) :
    (explore_move b s m).length = b.length ∧
    (explore_move b s m).getD m none = some s ∧
    ∀ i, i ≠ m → (explore_move b s m).getD i none = b.getD i none := by
  refine ⟨length_explore_move b s m, ?_, ?_⟩
  · unfold explore_move
    rw [List.getD_eq_getElem?_getD, List.getElem?_set_self (hb ▸ hm)]
    rfl
  · intro i hi
    unfold explore_move
    rw [List.getD_eq_getElem?_getD, List.getElem?_set_ne (Ne.symm hi),
      ← List.getD_eq_getElem?_getD]

lemma mem_get_moves_and_boards {b : Board} {s : Symbol} {ms : Nat × Board}
    (h : ms ∈ get_moves_and_boards b s) : ms.1 ∈ freeMoves b := by
  unfold get_moves_and_boards at h
  rcases List.mem_map.mp h with ⟨m, hm, rfl⟩
  exact hm

/-- **C5**: a move returned by any of the three agents is the index of a
cell that is free in the input board. -/
theorem C5_moves_target_free_cells :
    (∀ b my m, OptimalEvaluationAgent.move b my = some m →
       is_free b m = true) ∧
    (∀ (st : MLState) (u1 : ℚ) (p1 : Nat) (u2 : ℚ) (p2 : Nat) b my m,
       (MLAgent.move st u1 p1 u2 p2 b my).map Prod.fst = some m →
       is_free b m = true) ∧
    (∀ (p : Nat) b my m, RandomAgent.move p b my = some m →
       is_free b m = true) := by
  refine ⟨?_, ?_, ?_⟩
  · intro b my m h
    unfold OptimalEvaluationAgent.move EvaluationAgent.move at h
    dsimp only at h
    rcases Option.map_eq_some'.mp h with ⟨pair, hhead, hp2⟩
    obtain ⟨hmem, -⟩ := sortDesc_head_max hhead
    rcases List.mem_map.mp hmem with ⟨ms, hms, hpair⟩
    have h1 : ms.1 ∈ freeMoves b := mem_get_moves_and_boards hms
    have h2 : pair.2 = ms.1 := by rw [← hpair]
    rw [← hp2, h2]
    exact (mem_freeMoves.mp h1).2
  · intro st u1 p1 u2 p2 b my m h
    obtain ⟨lrn, symb, eps, alph, mem⟩ := st
    unfold MLAgent.move at h
    dsimp only at h
    cases hmm : MLAgent.minmax ⟨lrn, some (symb.getD my), eps, alph, mem⟩ u1
        p1 b my with
    | none => rw [hmm] at h; simp at h
    | some mv =>
      rw [hmm] at h
      dsimp only at h
      have hm : m = mv := by
        cases lrn with
        | false => simp at h; exact h.symm
        | true =>
          rw [if_pos rfl] at h
          split at h
          · simp at h
          · simp at h; exact h.symm
      rw [hm]
      exact (mem_freeMoves.mp (minmax_mem hmm)).2
  · intro p b my m h
    unfold RandomAgent.move at h
    rcases Option.map_eq_some'.mp h with ⟨pr, hch, hp1⟩
    have h1 := mem_get_moves_and_boards (choice_mem hch)
    rw [hp1] at h1
    exact (mem_freeMoves.mp h1).2

/-- Witness for C5: concrete moves of the three agents on the empty board
land on free cells. -/
theorem C5_moves_target_free_cells_witness :
    is_free board0 4 = true ∧ is_free board0 0 = true ∧
    is_free board0 3 = true :=
  ⟨C5_moves_target_free_cells.1 board0 Symbol.X 4 (by decide),
   C5_moves_target_free_cells.2.1 ⟨true, none, 0, 1, fun _ => none⟩ 0 0 0 0
     board0 Symbol.X 0 (by decide),
   C5_moves_target_free_cells.2.2 3 board0 Symbol.X 3 (by decide)⟩

/-- Witness for C9: playing O at an occupied corner of a concrete board. -/
theorem C9_explore_move_frame_witness :
    (explore_move (explore_move board0 Symbol.X 0) Symbol.O 0).length
      = (explore_move board0 Symbol.X 0).length ∧
    (explore_move (explore_move board0 Symbol.X 0) Symbol.O 0).getD 0 none
      = some Symbol.O ∧
    ∀ i, i ≠ 0 →
      (explore_move (explore_move board0 Symbol.X 0) Symbol.O 0).getD i none
        = (explore_move board0 Symbol.X 0).getD i none :=
  C9_explore_move_frame (explore_move board0 Symbol.X 0) Symbol.O 0
    (by decide) (by decide)

/-- **C3**: the heuristic agent's evaluation equals the spec's formula:
1000 on a completed own line, else 0 when the opponent could win in one
move, else 500 when the agent could still win in one move, else the
positional sum (4 center, 2 corners, 1 edges) over the agent's cells. -/
theorem C3_heuristic_evaluation (b : Board) (s t : Symbol) :
    OptimalEvaluationAgent.evaluate b s t = specHeuristic b s t := by
  unfold OptimalEvaluationAgent.evaluate specHeuristic
  by_cases h1 : is_winner b s = true
  · simp [h1]
  · simp only [h1, Bool.false_eq_true, if_false]
    by_cases h2 : can_win b t = true
    · simp [h2]
    · simp only [h2, Bool.false_eq_true, if_false]
      by_cases h3 : can_win b s = true
      · simp [h3]
      · simp only [h3, Bool.false_eq_true, if_false]
        unfold specPositional positionalWeight
        have hr : List.range 9 = [0, 1, 2, 3, 4, 5, 6, 7, 8] := by decide
        rw [hr]
        simp only [List.map_cons, List.map_nil, List.sum_cons, List.sum_nil]
        norm_num
        ring

/-- **C4**: the heuristic agent returns the move whose `(score, index)`
pair is lexicographically maximal among the legal moves: every other legal
move's pair is `≤`, and a legal move with the same score has a smaller or
equal index. -/
theorem C4_heuristic_tie_break (b : Board) (my : Symbol)
    (hf : freeMoves b ≠ []) :
    ∃ m, OptimalEvaluationAgent.move b my = some m ∧ m ∈ freeMoves b ∧
      (∀ m' ∈ freeMoves b,
        pairLe
          (OptimalEvaluationAgent.evaluate (explore_move b my m') my
            (opponent my), m')
          (OptimalEvaluationAgent.evaluate (explore_move b my m) my
            (opponent my), m)) ∧
      (∀ m' ∈ freeMoves b,
        OptimalEvaluationAgent.evaluate (explore_move b my m') my
            (opponent my)
          = OptimalEvaluationAgent.evaluate (explore_move b my m) my
              (opponent my) → m' ≤ m) := by
  unfold OptimalEvaluationAgent.move EvaluationAgent.move
  dsimp only
  set score := fun m => OptimalEvaluationAgent.evaluate (explore_move b my m)
    my (opponent my) with hscore
  have hevals : ((get_moves_and_boards b my).map fun ms =>
      (OptimalEvaluationAgent.evaluate ms.2 my (opponent my), ms.1))
      = (freeMoves b).map fun m => (score m, m) := by
    unfold get_moves_and_boards
    rw [List.map_map]
    rfl
  rw [hevals]
  set L := (freeMoves b).map fun m => (score m, m) with hL
  have hLne : L ≠ [] := by
    rw [hL]
    simpa using hf
  have hperm : List.Perm (sortDesc L) L := by
    rw [sortDesc_eq_insertionSort]
    exact List.perm_insertionSort _ L
  cases hsd : sortDesc L with
  | nil => exact absurd ((hsd ▸ hperm).symm.eq_nil) hLne
  | cons pair tl =>
    have hhead : (sortDesc L).head? = some pair := by rw [hsd]; rfl
    obtain ⟨hpmem, hpmax⟩ := sortDesc_head_max hhead
    rcases List.mem_map.mp hpmem with ⟨m0, hm0, hpeq⟩
    subst hpeq
    refine ⟨m0, rfl, hm0, ?_, ?_⟩
    · intro m' hm'
      exact hpmax _ (List.mem_map_of_mem _ hm')
    · intro m' hm' hseq
      have hle := hpmax _ (List.mem_map_of_mem (fun m => (score m, m)) hm')
      rcases hle with heq | hlt
      · simp only [Prod.mk.injEq] at heq
        exact heq.2.le
      · simp only [pairLt] at hlt
        rcases hlt with h | ⟨h1, h2⟩
        · simp only [hscore] at h
          rw [hseq] at h
          exact absurd h (lt_irrefl _)
        · exact h2.le

/-- Witness for C4: on a board with X in the center and a harmless O, all
free moves give X a one-move win and score equally (500); the agent
returns the largest free index, 8. -/
theorem C4_heuristic_tie_break_witness :
    freeMoves [none, none, none, none, some Symbol.X, some Symbol.O, none,
      none, none] ≠ [] ∧
    ∃ m, OptimalEvaluationAgent.move [none, none, none, none, some Symbol.X,
        some Symbol.O, none, none, none] Symbol.X = some m ∧
      m ∈ freeMoves [none, none, none, none, some Symbol.X, some Symbol.O,
        none, none, none] ∧
      (∀ m' ∈ freeMoves [none, none, none, none, some Symbol.X,
          some Symbol.O, none, none, none],
        pairLe
          (OptimalEvaluationAgent.evaluate
            (explore_move [none, none, none, none, some Symbol.X,
              some Symbol.O, none, none, none] Symbol.X m') Symbol.X
            (opponent Symbol.X), m')
          (OptimalEvaluationAgent.evaluate
            (explore_move [none, none, none, none, some Symbol.X,
              some Symbol.O, none, none, none] Symbol.X m) Symbol.X
            (opponent Symbol.X), m)) ∧
      (∀ m' ∈ freeMoves [none, none, none, none, some Symbol.X,
          some Symbol.O, none, none, none],
        OptimalEvaluationAgent.evaluate
            (explore_move [none, none, none, none, some Symbol.X,
              some Symbol.O, none, none, none] Symbol.X m') Symbol.X
            (opponent Symbol.X)
          = OptimalEvaluationAgent.evaluate
              (explore_move [none, none, none, none, some Symbol.X,
                some Symbol.O, none, none, none] Symbol.X m) Symbol.X
              (opponent Symbol.X) → m' ≤ m) :=
  ⟨by decide,
   C4_heuristic_tie_break [none, none, none, none, some Symbol.X,
     some Symbol.O, none, none, none] Symbol.X (by decide)⟩

/-- **C1**: with learning on and a free cell available, `move` succeeds;
the selection rule's chosen move is the index returned to the caller, and
the table entry keyed by the resulting `next_board` is set to
`mem(next_board) + alpha * (reward + mem(next_next_board))`, where the
continuation value is 0 on a terminal `next_board` and otherwise the
pre-update table value of the board reached by simulating the opponent's
reply with the same selection rule. -/
theorem C1_learning_update (st : MLState) (u1 : ℚ) (p1 : Nat) (u2 : ℚ)
    (p2 : Nat) (b : Board) (my : Symbol)
    (hl : st.learning = true) (hb : b.length = 9) (hf : freeMoves b ≠ []) :
    ∃ mv st', MLAgent.move st u1 p1 u2 p2 b my = some (mv, st') ∧
      MLAgent.minmax { st with symbol := some (st.symbol.getD my) } u1 p1 b my
        = some mv ∧
      ∃ nmem : ℚ,
        (((∃ s : Symbol, is_winner (explore_move b my mv) s = true) ∨
            is_board_full (explore_move b my mv) = true) → nmem = 0) ∧
        ((∀ s : Symbol, is_winner (explore_move b my mv) s = false) →
          is_board_full (explore_move b my mv) = false →
          ∃ nmv,
            MLAgent.minmax { st with symbol := some (st.symbol.getD my) } u2
                p2 (explore_move b my mv) (opponent my) = some nmv ∧
            nmem = MLAgent.value_from_memory st.memory
              (explore_move (explore_move b my mv) (opponent my) nmv)) ∧
        st'.memory = MLAgent.store_value st.memory (explore_move b my mv)
          (MLAgent.value_from_memory st.memory (explore_move b my mv) +
            st.alpha *
              (specReward (st.symbol.getD my) (explore_move b my mv) + nmem)) := by
  obtain ⟨lrn, symb, eps, alph, mem⟩ := st
  dsimp only at hl
  subst hl
  obtain ⟨mv, hmv, hmem⟩ :=
    @minmax_isSome ⟨true, some (symb.getD my), eps, alph, mem⟩ u1 p1 b my hf
  unfold MLAgent.move
  dsimp only at hmv ⊢
  rw [hmv]
  dsimp only
  rw [if_pos rfl]
  by_cases hcond : ¬ is_winner (explore_move b my mv) my = true
      ∧ ¬ is_winner (explore_move b my mv) (opponent my) = true
      ∧ ¬ is_board_full (explore_move b my mv) = true
  · rw [if_pos hcond]
    obtain ⟨hw1, hw2, hw3⟩ := hcond
    have hnotfull : is_board_full (explore_move b my mv) = false :=
      Bool.not_eq_true _ ▸ hw3
    have hflen : (explore_move b my mv).length = 9 := by
      rw [length_explore_move]; exact hb
    obtain ⟨nmv, hnmv, -⟩ :=
      @minmax_isSome ⟨true, some (symb.getD my), eps, alph, mem⟩ u2 p2 _
        (opponent my) (freeMoves_ne_nil hflen hnotfull)
    rw [hnmv]
    dsimp only
    refine ⟨mv, _, rfl, rfl,
      MLAgent.value_from_memory mem
        (explore_move (explore_move b my mv) (opponent my) nmv),
      ?_, fun _ _ => ⟨nmv, hnmv, rfl⟩, ?_⟩
    · intro hterm
      exfalso
      rcases hterm with ⟨s, hs⟩ | hfull
      · rcases symbol_cases s my with rfl | rfl
        · exact hw1 hs
        · exact hw2 hs
      · exact hw3 hfull
    · dsimp only
      rw [evaluate_cast_eq_specReward]
  · rw [if_neg hcond]
    dsimp only
    refine ⟨mv, _, rfl, rfl, 0, fun _ => rfl, ?_, ?_⟩
    · intro hnw hnf
      exfalso
      push_neg at hcond
      rcases Bool.not_eq_true _ ▸ hnw my with h1
      have h2 := hnw (opponent my)
      have hx := hcond (by rw [hnw my]; simp) (by rw [h2]; simp)
      rw [hnf] at hx
      simp at hx
    · dsimp only
      rw [evaluate_cast_eq_specReward]

/-- Witness for C1: a concrete learning step from the empty board with an
empty table. -/
theorem C1_learning_update_witness :
    (⟨true, none, 0, 1, fun _ => none⟩ : MLState).learning = true ∧
    board0.length = 9 ∧ freeMoves board0 ≠ [] ∧
    ∃ mv st',
      MLAgent.move ⟨true, none, 0, 1, fun _ => none⟩ 0 0 0 0 board0 Symbol.X
        = some (mv, st') ∧
      MLAgent.minmax ⟨true, some Symbol.X, 0, 1, fun _ => none⟩ 0 0 board0
          Symbol.X = some mv ∧
      ∃ nmem : ℚ,
        (((∃ s : Symbol, is_winner (explore_move board0 Symbol.X mv) s = true)
            ∨ is_board_full (explore_move board0 Symbol.X mv) = true) →
          nmem = 0) ∧
        ((∀ s : Symbol,
            is_winner (explore_move board0 Symbol.X mv) s = false) →
          is_board_full (explore_move board0 Symbol.X mv) = false →
          ∃ nmv,
            MLAgent.minmax ⟨true, some Symbol.X, 0, 1, fun _ => none⟩ 0 0
                (explore_move board0 Symbol.X mv) (opponent Symbol.X)
              = some nmv ∧
            nmem = MLAgent.value_from_memory (fun _ => none)
              (explore_move (explore_move board0 Symbol.X mv)
                (opponent Symbol.X) nmv)) ∧
        st'.memory = MLAgent.store_value (fun _ => none)
          (explore_move board0 Symbol.X mv)
          (MLAgent.value_from_memory (fun _ => none)
              (explore_move board0 Symbol.X mv) +
            1 * (specReward Symbol.X (explore_move board0 Symbol.X mv) + nmem)) :=
  ⟨rfl, rfl, by decide,
   C1_learning_update ⟨true, none, 0, 1, fun _ => none⟩ 0 0 0 0 board0
     Symbol.X rfl rfl (by decide)⟩

/-- **C10, counterexample**: an agent whose first `move` call bound X
(learning off, empty table, empty board) is then asked to move as O on the
resulting board; the call returns the index 1 — no error is signalled. -/
theorem C10_different_symbol_counterexample :
    ((MLAgent.move ⟨false, none, 0, 1, fun _ => none⟩ 0 0 0 0 board0
        Symbol.X).bind fun r =>
      (MLAgent.move r.2 0 0 0 0 (explore_move board0 Symbol.X r.1)
          Symbol.O).map Prod.fst)
      = some 1 := by
  decide

/-- **C10, amended**: after the symbol has been bound, calling `move` with
a different symbol proceeds without error: the original binding is kept and
the move is drawn from the selection rule's candidate set for a
non-bound symbol (the opponent-simulation min rule, or exploration). -/
theorem C10_different_symbol_proceeds (st : MLState) (u1 : ℚ) (p1 : Nat)
    (u2 : ℚ) (p2 : Nat) (b : Board) (my s : Symbol)
    (hbound : st.symbol = some s) (hne : my ≠ s)
    (hb : b.length = 9) (hf : freeMoves b ≠ []) :
    ∃ mv st', MLAgent.move st u1 p1 u2 p2 b my = some (mv, st') ∧
      st'.symbol = some s ∧
      mv ∈ specOptions st u1 b my ∧
      st.symbol ≠ some my := by
  have hst : ({ st with symbol := some (st.symbol.getD my) } : MLState)
      = st := by
    obtain ⟨lrn, symb, eps, alph, mem⟩ := st
    dsimp only at hbound ⊢
    rw [hbound]
    rfl
  obtain ⟨mv, st', hmove, hminmax, -, hsym⟩ :=
    move_spec st u1 p1 u2 p2 b my hb hf
  rw [hst] at hminmax
  rw [hbound] at hsym
  refine ⟨mv, st', hmove, by rw [hsym]; rfl, ?_, ?_⟩
  · rw [minmax_eq_choice] at hminmax
    exact choice_mem hminmax
  · rw [hbound]
    intro hcon
    exact hne (Option.some.injEq _ _ ▸ hcon).symm

/-- Witness for the amended C10: the concrete second call of the
counterexample, with X bound and O requested, succeeds with its bound
symbol intact. -/
theorem C10_different_symbol_proceeds_witness :
    (⟨false, some Symbol.X, 0, 1, fun _ => none⟩ : MLState).symbol
      = some Symbol.X ∧
    Symbol.O ≠ Symbol.X ∧
    (explore_move board0 Symbol.X 0).length = 9 ∧
    freeMoves (explore_move board0 Symbol.X 0) ≠ [] ∧
    ∃ mv st',
      MLAgent.move ⟨false, some Symbol.X, 0, 1, fun _ => none⟩ 0 0 0 0
          (explore_move board0 Symbol.X 0) Symbol.O = some (mv, st') ∧
      st'.symbol = some Symbol.X ∧
      mv ∈ specOptions ⟨false, some Symbol.X, 0, 1, fun _ => none⟩ 0
        (explore_move board0 Symbol.X 0) Symbol.O ∧
      (⟨false, some Symbol.X, 0, 1, fun _ => none⟩ : MLState).symbol
        ≠ some Symbol.O :=
  ⟨rfl, by decide, by decide, by decide,
   C10_different_symbol_proceeds ⟨false, some Symbol.X, 0, 1, fun _ => none⟩
     0 0 0 0 (explore_move board0 Symbol.X 0) Symbol.O Symbol.X rfl
     (by decide) (by decide) (by decide)⟩

end BKE
